import Mathlib

/-!
Verification development for a comic-archive scraping pipeline
(`csm_all.py` and `csm_epub.py`).

Strings are modelled as `List Char` (Python `str` is a sequence of code
points).  Regular-expression searches from the source are modelled as
explicit leftmost-match scanners, and `urllib.parse.unquote` is modelled
at the single-byte level (faithful for ASCII percent-escapes, which is
the only form the pipeline's URLs use).
-/

namespace CSM

abbrev Str := List Char

/-- Lowercase a string, as Python `str.lower()` on ASCII letters. -/
def lcS (s : Str) : Str := s.map Char.toLower

/-- Strict lexicographic comparison on code points, as Python `str.__lt__`. -/
def strLt : Str → Str → Bool
  | _, [] => false
  | [], _ :: _ => true
  | a :: as, b :: bs => if a < b then true else if b < a then false else strLt as bs

/-- Non-strict string comparison, as Python `str.__le__`. -/
def strLe (a b : Str) : Bool := !(strLt b a)

/-- The last `/`-separated segment of a path: Python `s.split("/")[-1]`
(also `os.path.basename` for the paths this program builds). -/
def lastSeg (s : Str) : Str := (s.reverse.takeWhile (fun c => c ≠ '/')).reverse

/-- Drop trailing `/` characters (helper for `dirname`). -/
def stripTrailingSlashes (s : Str) : Str := (s.reverse.dropWhile (fun c => c = '/')).reverse

/-- `os.path.dirname` for POSIX paths: the part before the last `/`,
with trailing slashes stripped unless the head is all slashes. -/
def dirname (p : Str) : Str :=
  let head := (p.reverse.dropWhile (fun c => c ≠ '/')).reverse
  if head.all (fun c => c = '/') then head else stripTrailingSlashes head

/-- `os.path.join a b` for the shapes this program uses: if `b` is
absolute it wins, otherwise the parts are joined with a single `/`
(`a` never ends in a slash here). -/
def joinPath (a b : Str) : Str :=
  if ['/'].isPrefixOf b then b else a ++ '/' :: b

/-- First index at which `pat` occurs in `s`: Python `s.find(pat)`
(returning `none` for `-1`). -/
def findSub (pat : Str) : Str → Option Nat
  | [] => if pat.isPrefixOf ([] : Str) then some 0 else none
  | c :: rest =>
    if pat.isPrefixOf (c :: rest) then some 0 else (findSub pat rest).map (· + 1)

/-- Substring containment, Python `pat in s`. -/
def containsSub (pat s : Str) : Bool := (findSub pat s).isSome

/-- Numeric value of a string of decimal digits, as Python `int(...)`. -/
def digitsToNat (ds : Str) : Nat :=
  ds.foldl (fun acc c => 10 * acc + (c.toNat - '0'.toNat)) 0

/-- Hex-digit test for percent-decoding. -/
def isHexDig (c : Char) : Bool :=
  c.isDigit || ('a' ≤ c && c ≤ 'f') || ('A' ≤ c && c ≤ 'F')

/-- Value of a hex digit. -/
def hexVal (c : Char) : Nat :=
  if c.isDigit then c.toNat - '0'.toNat
  else if 'a' ≤ c && c ≤ 'f' then c.toNat - 'a'.toNat + 10
  else c.toNat - 'A'.toNat + 10

/-- `urllib.parse.unquote`, modelled at the single-byte level: every
`%XX` with two hex digits becomes the code point `XX`; a `%` not
followed by two hex digits is kept verbatim.  (Python additionally
UTF-8-decodes consecutive escaped bytes; the two models agree on
ASCII escapes, the only ones these archive URLs contain.) -/
def unquote : Str → Str
  | [] => []
  | '%' :: c1 :: c2 :: rest =>
    if isHexDig c1 && isHexDig c2 then
      Char.ofNat (16 * hexVal c1 + hexVal c2) :: unquote rest
    else '%' :: unquote (c1 :: c2 :: rest)
  | c :: rest => c :: unquote rest

/-! ### Module-level constants of `csm_all.py` -/

def OUTPUT_ROOT : Str := "chainsaw_man_colored".toList

def FIRST_VOL : Nat := 1

def LAST_VOL : Nat := 11

/-- Python `f"{i:02d}"` for `i < 100`. -/
def pad2 (i : Nat) : Str :=
  if i < 10 then ['0', Nat.digitChar i] else [Nat.digitChar (i / 10), Nat.digitChar (i % 10)]

/-- `TARGET_VOLUMES = {f"{i:02d}" for i in range(FIRST_VOL, LAST_VOL + 1)}`,
kept as a list of two-digit strings. -/
def TARGET_VOLUMES : List Str := (List.range' FIRST_VOL (LAST_VOL + 1 - FIRST_VOL)).map pad2

def volMarkerS : Str := "Digital Colored Comics v".toList

def rootMarkerS : Str := "Chainsaw Man (Digitally Colored)/".toList

/-! ### Link Extractor (`parse_image_links`) -/

/-- Does a candidate href body (the text between the quotes) match
`[^"]+\.(?:jpg|jpeg|png)` case-insensitively?  It must end in one of
the three extensions and have at least one character before the dot. -/
def hrefBodyMatches (body : Str) : Bool :=
  let l := lcS body
  (".jpg".toList.isSuffixOf l && decide (5 ≤ body.length)) ||
  (".jpeg".toList.isSuffixOf l && decide (6 ≤ body.length)) ||
  (".png".toList.isSuffixOf l && decide (5 ≤ body.length))

/-- One step of `re.findall(r'href="([^"]+\.(?:jpg|jpeg|png))"', html, re.IGNORECASE)`:
scan for `href="`, take the body up to the closing quote, keep it when the
body matches; on a match the scan resumes after the closing quote, on a
miss at the next character.  `fuel` bounds the recursion by the input length. -/
def extractAux : Nat → Str → List Str
  | 0, _ => []
  | fuel + 1, s =>
    match s with
    | [] => []
    | _ :: rest =>
      if lcS (s.take 6) = "href=\"".toList then
        let body := (s.drop 6).takeWhile (fun c => c ≠ '"')
        match (s.drop 6).dropWhile (fun c => c ≠ '"') with
        | _ :: afterQuote =>
          if hrefBodyMatches body then body :: extractAux fuel afterQuote
          else extractAux fuel rest
        | [] => []
      else extractAux fuel rest

/-- All href attribute values ending in `.jpg`/`.jpeg`/`.png` found in the
HTML, in document order. -/
def extractHrefs (html : Str) : List Str := extractAux html.length html

/-- If `s` begins with `Digital Colored Comics v` followed by two digits,
the two digit characters; the anchored step of `re.search(r"Digital Colored Comics v(\d{2})", ...)`. -/
def volAt (s : Str) : Option Str :=
  if volMarkerS.isPrefixOf s then
    match s.drop volMarkerS.length with
    | d1 :: d2 :: _ => if d1.isDigit && d2.isDigit then some [d1, d2] else none
    | _ => none
  else none

/-- Leftmost match of `re.search(r"Digital Colored Comics v(\d{2})", decoded)`:
the first position whose suffix starts with the marker and two digits. -/
def searchVolMarker : Str → Option Str
  | [] => none
  | c :: rest =>
    match volAt (c :: rest) with
    | some v => some v
    | none => searchVolMarker rest

/-- A `LinkRecord` as produced by `parse_image_links`:
`{'vol': ..., 'inner_path': ..., 'url': ...}`. -/
structure LinkRecord where
  vol : Str
  inner_path : Str
  url : Str
deriving DecidableEq, Repr

/-- Scheme normalization of `parse_image_links` (lines 53–58):
`//...` becomes `https://...`, `http(s)://` is kept, anything else is
dropped (`continue`). -/
def normalizeUrl (href : Str) : Option Str :=
  if "//".toList.isPrefixOf href then some ("https:".toList ++ href)
  else if "http://".toList.isPrefixOf href || "https://".toList.isPrefixOf href then some href
  else none

/-- `inner_path` derivation of `parse_image_links` (lines 72–76): the
decoded path from the first root-marker occurrence on, else the bare
filename. -/
def innerOf (decoded : Str) : Str :=
  match findSub rootMarkerS decoded with
  | none => lastSeg decoded
  | some idx => decoded.drop idx

/-- The loop body of `parse_image_links` for one href: scheme
normalization, percent-decoding, volume filtering, and `inner_path`
derivation; `none` models `continue`. -/
def processHref (href : Str) : Option LinkRecord :=
  match normalizeUrl href with
  | none => none
  | some fullUrl =>
    let decoded := unquote href
    match searchVolMarker decoded with
    | none => none
    | some vol =>
      if TARGET_VOLUMES.contains vol then some ⟨vol, innerOf decoded, fullUrl⟩
      else none

/-- `parse_image_links`: all kept links in document order. -/
def parse_image_links (html : Str) : List LinkRecord :=
  (extractHrefs html).filterMap processHref

/-- The local target path of a record: `os.path.join(OUTPUT_ROOT, inner_path)`. -/
def targetPath (r : LinkRecord) : Str := joinPath OUTPUT_ROOT r.inner_path

/-! ### Spec-side predicates about the Link Extractor -/

/-- Spec-side: the href has an http or https scheme, a protocol-relative
`//...` href counting as https after normalization. -/
def schemeSpec (href : Str) : Bool :=
  "//".toList.isPrefixOf href ||
  "http://".toList.isPrefixOf href || "https://".toList.isPrefixOf href

/-- Spec-side, claim C1 as written: the decoded path *contains* (anywhere)
the marker `Digital Colored Comics v` followed by an in-range two-digit
number. -/
def specHasInRangeMarker (s : Str) : Bool :=
  s.tails.any (fun t =>
    match volAt t with
    | some v => TARGET_VOLUMES.contains v
    | none => false)

/-- The condition the code actually imposes: the *first* occurrence of the
marker pattern has its two-digit number in range. -/
def firstVolInRange (s : Str) : Bool :=
  match searchVolMarker s with
  | some v => TARGET_VOLUMES.contains v
  | none => false

/-- Spec-side `inner_path` rule: the substring of the decoded href from
the first occurrence of the root marker onward, or the bare filename
(last `/`-separated segment) when the marker is absent. -/
def innerSpec (decoded : Str) : Str :=
  match findSub rootMarkerS decoded with
  | none => lastSeg decoded
  | some idx => decoded.drop idx

/-! ### Concrete inputs for the extractor claims -/

def c1Href : Str :=
  "https://a/Digital Colored Comics v99 Digital Colored Comics v05/x.jpg".toList

def c1Html : Str := "<a href=\"".toList ++ c1Href ++ "\">".toList

def c8Href : Str :=
  ("//cdn/x/Digital Colored Comics v05/" ++
   "Chainsaw Man (Digitally Colored)/Chapter 2 - Foo/03.jpg").toList

def c8Html : Str := "<a href=\"".toList ++ c8Href ++ "\">x</a>".toList

def c8Record : LinkRecord :=
  ⟨"05".toList,
   "Chainsaw Man (Digitally Colored)/Chapter 2 - Foo/03.jpg".toList,
   ("https://cdn/x/Digital Colored Comics v05/" ++
    "Chainsaw Man (Digitally Colored)/Chapter 2 - Foo/03.jpg").toList⟩

def c9Html : Str :=
  ("<a href=\"https://a/Digital Colored Comics v05/foo.jpg\">" ++
   "<a href=\"https://b/Digital Colored Comics v05/foo.jpg\">").toList

def c9R1 : LinkRecord :=
  ⟨"05".toList, "foo.jpg".toList,
   "https://a/Digital Colored Comics v05/foo.jpg".toList⟩

def c9R2 : LinkRecord :=
  ⟨"05".toList, "foo.jpg".toList,
   "https://b/Digital Colored Comics v05/foo.jpg".toList⟩

/-! ### Claim C1 -/

/-- C1, counterexample: in this HTML the href ends in `.jpg`, has an
https scheme, and its decoded form *contains* `Digital Colored Comics v05`
with `05` in the configured range, yet the extractor keeps nothing,
because the *first* marker occurrence reads `99`.  This refutes C1 as
stated (inclusion iff scheme ∧ contains-in-range-marker). -/
theorem c1_contains_marker_counterexample :
    c1Href ∈ extractHrefs c1Html ∧ schemeSpec c1Href = true ∧
    specHasInRangeMarker (unquote c1Href) = true ∧
    parse_image_links c1Html = [] := by decide

/-- C1, amended: a `LinkRecord` is in the extractor's output iff it comes
from some scanned href, and an href (of any shape) is kept iff it has an
http/https scheme (protocol-relative `//` counting as https) and the
*first* occurrence in its percent-decoded form of
`Digital Colored Comics v` followed by two digits has those two digits in
`FIRST_VOL..LAST_VOL`. -/
theorem c1_kept_iff_scheme_and_first_marker_in_range :
    (∀ html r, r ∈ parse_image_links html ↔
       ∃ href ∈ extractHrefs html, processHref href = some r) ∧
    (∀ href, (processHref href).isSome = true ↔
       (schemeSpec href = true ∧ firstVolInRange (unquote href) = true)) := by
  constructor
  · intro html r
    simp [parse_image_links, List.mem_filterMap]
  · intro href
    unfold processHref normalizeUrl schemeSpec firstVolInRange
    cases h1 : "//".toList.isPrefixOf href <;>
      cases h2 : "http://".toList.isPrefixOf href <;>
        cases h3 : "https://".toList.isPrefixOf href <;>
          cases hv : searchVolMarker (unquote href) <;>
            simp [h1, h2, h3, hv]

/-- Witness for the amended C1 at the concrete scenario href. -/
theorem c1_amended_witness :
    (processHref c8Href).isSome = true ↔
      (schemeSpec c8Href = true ∧ firstVolInRange (unquote c8Href) = true) :=
  c1_kept_iff_scheme_and_first_marker_in_range.2 c8Href

/-! ### Claim C8 -/

/-- C8: for every kept href the record's `inner_path` follows the
root-marker rule (`innerSpec`), and the spec's sample scenario yields
exactly one record with volume `05`, an `https://`-prefixed URL, and an
`inner_path` starting at the root marker. -/
theorem c8_inner_path_rule_and_scenario :
    (∀ href r, processHref href = some r → r.inner_path = innerSpec (unquote href)) ∧
    parse_image_links c8Html = [c8Record] ∧
    rootMarkerS.isPrefixOf c8Record.inner_path = true ∧
    "https://".toList.isPrefixOf c8Record.url = true ∧
    c8Record.vol = "05".toList := by
  refine ⟨?_, by decide, by decide, by decide, by decide⟩
  intro href r h
  unfold processHref at h
  cases hn : normalizeUrl href with
  | none => rw [hn] at h; exact absurd h (by simp)
  | some u =>
    rw [hn] at h
    dsimp only at h
    cases hv : searchVolMarker (unquote href) with
    | none =>
      simp only [hv] at h
      exact absurd h (by simp)
    | some v =>
      simp only [hv] at h
      split at h
      · injection h with h'
        subst h'
        rfl
      · exact absurd h (by simp)

/-- Witness for C8's universally quantified `inner_path` rule at the
scenario href. -/
theorem c8_witness : c8Record.inner_path = innerSpec (unquote c8Href) :=
  c8_inner_path_rule_and_scenario.1 c8Href c8Record (by decide)

/-! ### Claim C9 -/

/-- C9, counterexample: two hrefs on different hosts both decode to an
inner path without the root marker, so both fall back to the bare
filename `foo.jpg`; the extractor emits two distinct records whose local
target paths coincide.  This refutes C9 as stated. -/
theorem c9_distinct_targets_counterexample :
    parse_image_links c9Html = [c9R1, c9R2] ∧ c9R1 ≠ c9R2 ∧
    targetPath c9R1 = targetPath c9R2 := by decide

/-- C9, amended: the map from `inner_path` to the local target path is
injective, so two records contend on a file only when their inner paths
are equal (which distinct hrefs can produce). -/
theorem c9_target_of_inner_injective :
    ∀ r1 r2 : LinkRecord, targetPath r1 = targetPath r2 →
      r1.inner_path = r2.inner_path := by
  intro r1 r2 h
  unfold targetPath joinPath at h
  have hO : OUTPUT_ROOT = 'c' :: "hainsaw_man_colored".toList := by decide
  by_cases h1 : ['/'].isPrefixOf r1.inner_path = true <;>
    by_cases h2 : ['/'].isPrefixOf r2.inner_path = true
  · rw [if_pos h1, if_pos h2] at h
    exact h
  · rw [if_pos h1, if_neg h2] at h
    obtain ⟨t, ht⟩ := (List.isPrefixOf_iff_prefix.mp h1 : ['/'] <+: r1.inner_path)
    rw [← ht, hO, List.cons_append] at h
    injection h with hh _
    exact absurd hh (by decide)
  · rw [if_neg h1, if_pos h2] at h
    obtain ⟨t, ht⟩ := (List.isPrefixOf_iff_prefix.mp h2 : ['/'] <+: r2.inner_path)
    rw [← ht, hO, List.cons_append] at h
    injection h with hh _
    exact absurd hh (by decide)
  · rw [if_neg h1, if_neg h2] at h
    have hd := congrArg (List.drop OUTPUT_ROOT.length) h
    simp only [List.drop_left] at hd
    injection hd

/-- Witness for the amended C9 at the two colliding records. -/
theorem c9_amended_witness : c9R1.inner_path = c9R2.inner_path :=
  c9_target_of_inner_injective c9R1 c9R2 (by decide)

/-! ### Volume Collector ordering (`_sort_key_for_relpath`) -/

/-- Python's `\s` on the ASCII range. -/
def isPySpace (c : Char) : Bool :=
  c = ' ' || c = '\t' || c = '\n' || c = '\r' || c = '\x0b' || c = '\x0c'

/-- Anchored step of `re.search(r"Chapter\s+(\d+)", rel_path)`: the
literal `Chapter`, one or more whitespace characters, then the maximal
run of digits. -/
def chapAt (s : Str) : Option Nat :=
  if "Chapter".toList.isPrefixOf s then
    let rest := s.drop 7
    let ws := rest.takeWhile isPySpace
    let ds := (rest.drop ws.length).takeWhile Char.isDigit
    if ws ≠ [] ∧ ds ≠ [] then some (digitsToNat ds) else none
  else none

/-- Leftmost match of the chapter-number pattern. -/
def searchChapter : Str → Option Nat
  | [] => none
  | c :: rest =>
    match chapAt (c :: rest) with
    | some n => some n
    | none => searchChapter rest

/-- The lookahead `\.[^.]+$`: a dot, then at least one character, none of
them dots, up to the end of the string. -/
def lookaheadExt : Str → Bool
  | '.' :: rest => !rest.isEmpty && rest.all (fun c => c ≠ '.')
  | _ => false

/-- Anchored step of `re.search(r"(\d+)(?=\.[^.]+$)", base)`: a maximal
nonempty digit run immediately followed by the final extension.  (Digits
are not dots, so regex backtracking over shorter runs never succeeds.) -/
def pageAt (s : Str) : Option Nat :=
  let run := s.takeWhile Char.isDigit
  if run ≠ [] ∧ lookaheadExt (s.drop run.length) = true then some (digitsToNat run)
  else none

/-- Leftmost match of the page-number pattern. -/
def searchPage : Str → Option Nat
  | [] => none
  | c :: rest =>
    match pageAt (c :: rest) with
    | some n => some n
    | none => searchPage rest

/-- `chap_num`: extracted chapter number, sentinel 9999 when absent. -/
def chapNum (rel : Str) : Nat := (searchChapter rel).getD 9999

/-- `page_num`: extracted from the basename, sentinel 9999 when absent. -/
def pageNum (rel : Str) : Nat := (searchPage (lastSeg rel)).getD 9999

/-- `_sort_key_for_relpath`. -/
def sortKey (rel : Str) : Nat × Nat × Str := (chapNum rel, pageNum rel, rel)

/-- Python tuple `<=` on the sort keys `(chap_num, page_num, rel_path)`. -/
def keyLE (a b : Str) : Bool :=
  if chapNum a < chapNum b then true
  else if chapNum b < chapNum a then false
  else if pageNum a < pageNum b then true
  else if pageNum b < pageNum a then false
  else strLe a b

def keyRel (a b : Str) : Prop := keyLE a b = true

instance : DecidableRel keyRel :=
  fun a b => inferInstanceAs (Decidable (keyLE a b = true))

/-- `image_entries.sort(key=...)`, a stable sort by `sortKey`. -/
def sortEntries (l : List Str) : List Str := List.insertionSort keyRel l

/-! #### Order facts for the sort key -/

theorem strLt_irrefl (a : Str) : strLt a a = false := by
  induction a with
  | nil => rfl
  | cons x xs ih => simp [strLt, ih]

theorem strLt_trans {a b c : Str} (h1 : strLt a b = true) (h2 : strLt b c = true) :
    strLt a c = true := by
  induction a generalizing b c with
  | nil =>
    cases c with
    | nil =>
      cases b with
      | nil => exact h1
      | cons y ys => exact absurd h2 (by simp [strLt])
    | cons z zs => rfl
  | cons x xs ih =>
    cases b with
    | nil => exact absurd h1 (by simp [strLt])
    | cons y ys =>
      cases c with
      | nil => exact absurd h2 (by simp [strLt])
      | cons z zs =>
        simp only [strLt] at h1 h2 ⊢
        rcases lt_trichotomy x y with hxy | hxy | hxy
        · rcases lt_trichotomy y z with hyz | hyz | hyz
          · rw [if_pos (lt_trans hxy hyz)]
          · subst hyz; rw [if_pos hxy]
          · rw [if_neg (asymm hyz), if_pos hyz] at h2
            exact absurd h2 (by decide)
        · subst hxy
          rcases lt_trichotomy x z with hxz | hxz | hxz
          · rw [if_pos hxz]
          · subst hxz
            rw [if_neg (lt_irrefl x), if_neg (lt_irrefl x)] at h1 h2 ⊢
            exact ih h1 h2
          · rw [if_neg (asymm hxz), if_pos hxz] at h2
            exact absurd h2 (by decide)
        · rw [if_neg (asymm hxy), if_pos hxy] at h1
          exact absurd h1 (by decide)

theorem strLt_asymm {a b : Str} (h : strLt a b = true) : strLt b a = false := by
  by_contra hc
  have hba : strLt b a = true := by
    cases hb : strLt b a
    · exact absurd hb hc
    · rfl
  have := strLt_trans h hba
  rw [strLt_irrefl] at this
  exact Bool.false_ne_true this

theorem strLt_connex {a b : Str} (h1 : strLt a b = false) (h2 : strLt b a = false) :
    a = b := by
  induction a generalizing b with
  | nil => cases b with
    | nil => rfl
    | cons y ys => simp [strLt] at h1
  | cons x xs ih =>
    cases b with
    | nil => simp [strLt] at h2
    | cons y ys =>
      simp only [strLt] at h1 h2
      rcases lt_trichotomy x y with hxy | hxy | hxy
      · simp [hxy] at h1
      · subst hxy
        simp [lt_irrefl] at h1 h2
        rw [ih h1 h2]
      · simp [hxy] at h2

theorem strLe_total (a b : Str) : strLe a b = true ∨ strLe b a = true := by
  unfold strLe
  cases hba : strLt b a
  · left; rfl
  · right
    rw [strLt_asymm hba]
    rfl

theorem strLe_trans {a b c : Str} (h1 : strLe a b = true) (h2 : strLe b c = true) :
    strLe a c = true := by
  unfold strLe at h1 h2 ⊢
  cases hca : strLt c a
  · rfl
  · exfalso
    have hba : strLt b a = false := by
      cases hba : strLt b a
      · rfl
      · rw [hba] at h1; exact absurd h1 (by decide)
    have hcb : strLt c b = false := by
      cases hcb : strLt c b
      · rfl
      · rw [hcb] at h2; exact absurd h2 (by decide)
    cases hab : strLt a b
    · have hEq : a = b := strLt_connex hab hba
      subst hEq
      rw [hca] at hcb
      exact absurd hcb (by decide)
    · have htr := strLt_trans hca hab
      rw [hcb] at htr
      exact absurd htr (by decide)

theorem keyLE_iff (a b : Str) :
    keyLE a b = true ↔
      chapNum a < chapNum b ∨
        (chapNum a = chapNum b ∧
          (pageNum a < pageNum b ∨
            (pageNum a = pageNum b ∧ strLe a b = true))) := by
  unfold keyLE
  split_ifs with h1 h2 h3 h4 <;> constructor <;> intro h <;> first
    | omega
    | tauto
    | (refine Or.inr ⟨by omega, Or.inr ⟨by omega, ?_⟩⟩; assumption)
    | (rcases h with h | ⟨he, h | ⟨hp, hs⟩⟩ <;> first | omega | assumption)

theorem keyLE_total (a b : Str) : keyLE a b = true ∨ keyLE b a = true := by
  rw [keyLE_iff, keyLE_iff]
  rcases Nat.lt_trichotomy (chapNum a) (chapNum b) with h | h | h
  · tauto
  · rcases Nat.lt_trichotomy (pageNum a) (pageNum b) with h2 | h2 | h2
    · tauto
    · rcases strLe_total a b with h3 | h3 <;> [left; right] <;>
        exact Or.inr ⟨by omega, Or.inr ⟨by omega, h3⟩⟩
    · tauto
  · tauto

theorem keyLE_trans {a b c : Str} (h1 : keyLE a b = true) (h2 : keyLE b c = true) :
    keyLE a c = true := by
  rw [keyLE_iff] at h1 h2 ⊢
  rcases h1 with h1 | ⟨hc1, h1⟩
  · rcases h2 with h2 | ⟨hc2, _⟩ <;> [left; left] <;> omega
  · rcases h2 with h2 | ⟨hc2, h2⟩
    · left; omega
    · refine Or.inr ⟨by omega, ?_⟩
      rcases h1 with h1 | ⟨hp1, hs1⟩
      · rcases h2 with h2 | ⟨hp2, _⟩ <;> [left; left] <;> omega
      · rcases h2 with h2 | ⟨hp2, hs2⟩
        · left; omega
        · exact Or.inr ⟨by omega, strLe_trans hs1 hs2⟩

instance : IsTotal Str keyRel := ⟨keyLE_total⟩

instance : IsTrans Str keyRel := ⟨fun _ _ _ => keyLE_trans⟩

/-! ### Claim C2 -/

def c2A : Str := "Chapter 7 - Y/03.jpg".toList

def c2B : Str := "Chapter 5 - X/cover.jpg".toList

def c2C : Str := "misc/cover.jpg".toList

/-- C2, counterexample: `Chapter 5 - X/cover.jpg` has an extractable
chapter number but no extractable page number, yet it sorts *before*
`Chapter 7 - Y/03.jpg`, which has both.  This refutes C2's clause that
every entry missing a chapter or page number sorts after all entries
having both. -/
theorem c2_sentinel_counterexample :
    searchChapter c2A = some 7 ∧ searchPage (lastSeg c2A) = some 3 ∧
    searchChapter c2B = some 5 ∧ searchPage (lastSeg c2B) = none ∧
    sortEntries [c2A, c2B] = [c2B, c2A] := by decide

/-- C2, amended: the collector's list is sorted ascending by the
lexicographic key `(chapter-or-9999, page-or-9999, relative path)` and is
a permutation of its input; an entry with *neither* number extractable
sorts strictly after every entry whose two numbers are both below the
sentinel 9999, and two entries with neither number extractable are
ordered by relative path. -/
theorem c2_sorted_by_key :
    ∀ l : List Str,
      List.Sorted keyRel (sortEntries l) ∧ (sortEntries l).Perm l ∧
      (∀ a b, chapNum a < 9999 → pageNum a < 9999 → searchChapter b = none →
         searchPage (lastSeg b) = none → keyLE a b = true ∧ keyLE b a = false) ∧
      (∀ a b, searchChapter a = none → searchPage (lastSeg a) = none →
         searchChapter b = none → searchPage (lastSeg b) = none →
         keyLE a b = strLe a b) := by
  intro l
  refine ⟨List.sorted_insertionSort keyRel l, List.perm_insertionSort keyRel l, ?_, ?_⟩
  · intro a b ha1 ha2 hb1 hb2
    have hcb : chapNum b = 9999 := by simp [chapNum, hb1]
    have hpb : pageNum b = 9999 := by simp [pageNum, hb2]
    constructor
    · rw [keyLE_iff]; omega
    · unfold keyLE
      rw [hcb, hpb]
      simp only [if_neg (by omega : ¬9999 < chapNum a), if_pos (by omega : chapNum a < 9999)]
  · intro a b ha1 ha2 hb1 hb2
    have hca : chapNum a = 9999 := by simp [chapNum, ha1]
    have hpa : pageNum a = 9999 := by simp [pageNum, ha2]
    have hcb : chapNum b = 9999 := by simp [chapNum, hb1]
    have hpb : pageNum b = 9999 := by simp [pageNum, hb2]
    unfold keyLE
    rw [hca, hcb, hpa, hpb]
    simp

/-- Witness for the amended C2 at a concrete two-element collection. -/
theorem c2_amended_witness :
    List.Sorted keyRel (sortEntries [c2A, c2C]) ∧
    keyLE c2A c2C = true ∧ keyLE c2C c2A = false ∧
    keyLE c2C c2C = strLe c2C c2C := by
  refine ⟨(c2_sorted_by_key [c2A, c2C]).1, ?_, ?_, ?_⟩
  · exact ((c2_sorted_by_key []).2.2.1 c2A c2C (by decide) (by decide)
      (by decide) (by decide)).1
  · exact ((c2_sorted_by_key []).2.2.1 c2A c2C (by decide) (by decide)
      (by decide) (by decide)).2
  · exact (c2_sorted_by_key []).2.2.2 c2C c2C (by decide) (by decide)
      (by decide) (by decide)

/-! ### Download Manager (`_download_one`, `download_images`)

The filesystem is a set of files (path with contents) plus a set of
directories; the network is an oracle mapping the attempt number to
either the fetched bytes or a failure (`requests.get` raising).  The
thread pool is modelled by processing the records in order: every
record's effect is confined to its own target path, so the per-item
claims are insensitive to interleaving. -/

inductive DlStatus where
  | skipped
  | downloaded
  | failed
deriving DecidableEq, Repr

abbrev Bytes := List Nat

structure FS where
  files : List (Str × Bytes)
  dirs : List Str
deriving DecidableEq, Repr

/-- `os.path.exists`: true for a file or a directory at `p`. -/
def pathExistsFS (fs : FS) (p : Str) : Bool :=
  decide ((∃ f ∈ fs.files, f.1 = p) ∨ p ∈ fs.dirs)

/-- `os.makedirs(d, exist_ok=True)` (ancestor directories abstracted into
the one recorded entry). -/
def mkdirsFS (fs : FS) (d : Str) : FS := { fs with dirs := d :: fs.dirs }

/-- Result of `_download_one` on one record: the returned status, the
back-off sleeps performed, the number of GET requests issued, and the
filesystem afterwards. -/
structure DlOut where
  status : DlStatus
  sleeps : List ℚ
  requests : Nat
  fs : FS

/-- The retry loop of `_download_one` (lines 110–129), iterating over the
remaining attempt numbers (`range(1, retries + 1)`): a successful GET
returns the bytes; a failed GET before the last attempt sleeps
`backoff_base * attempt` and retries; the request count tracks the GETs
issued. -/
def runAttempts (net : Nat → Option Bytes) (base : ℚ) (retries : Nat) :
    List Nat → Option Bytes × List ℚ × Nat
  | [] => (none, [], 0)
  | attempt :: more =>
    match net attempt with
    | some b => (some b, [], 1)
    | none =>
      if attempt < retries then
        let r := runAttempts net base retries more
        (r.1, base * (attempt : ℚ) :: r.2.1, r.2.2 + 1)
      else (none, [], 1)

/-- `_download_one(item, session, retries=3, backoff_base=1.0)`. -/
def download_one (item : LinkRecord) (net : Nat → Option Bytes) (base : ℚ)
    (retries : Nat) (fs : FS) : DlOut :=
  let local_path := targetPath item
  let fs1 := mkdirsFS fs (dirname local_path)
  if pathExistsFS fs1 local_path then ⟨.skipped, [], 0, fs1⟩
  else
    match runAttempts net base retries (List.range' 1 retries) with
    | (some b, sleeps, reqs) =>
      ⟨.downloaded, sleeps, reqs, { fs1 with files := (local_path, b) :: fs1.files }⟩
    | (none, sleeps, reqs) => ⟨.failed, sleeps, reqs, fs1⟩

structure BatchOut where
  statuses : List DlStatus
  requests : Nat
  fs : FS

/-- `download_images`: every record is processed; one record's failure
never prevents the rest from being processed. -/
def download_images (base : ℚ) (retries : Nat) :
    List LinkRecord → (Nat → Nat → Option Bytes) → FS → BatchOut
  | [], _, fs => ⟨[], 0, fs⟩
  | it :: rest, net, fs =>
    let o := download_one it (net 0) base retries fs
    let b := download_images base retries rest (fun i => net (i + 1)) o.fs
    ⟨o.status :: b.statuses, o.requests + b.requests, b.fs⟩

/-! #### Filesystem lemmas for the Download Manager -/

theorem pathExistsFS_iff (fs : FS) (p : Str) :
    pathExistsFS fs p = true ↔ (∃ f ∈ fs.files, f.1 = p) ∨ p ∈ fs.dirs := by
  simp [pathExistsFS]

theorem pathExistsFS_mkdirs (fs : FS) (d p : Str) (h : pathExistsFS fs p = true) :
    pathExistsFS (mkdirsFS fs d) p = true := by
  rw [pathExistsFS_iff] at h ⊢
  rcases h with h | h
  · exact Or.inl h
  · exact Or.inr (List.mem_cons_of_mem d h)

theorem download_one_mono (item : LinkRecord) (net : Nat → Option Bytes) (base : ℚ)
    (retries : Nat) (fs : FS) (p : Str) (h : pathExistsFS fs p = true) :
    pathExistsFS (download_one item net base retries fs).fs p = true := by
  unfold download_one
  dsimp only
  split
  · exact pathExistsFS_mkdirs fs _ p h
  · split
    · rw [pathExistsFS_iff]
      have h' := (pathExistsFS_iff (mkdirsFS fs (dirname (targetPath item))) p).mp
        (pathExistsFS_mkdirs fs _ p h)
      rcases h' with ⟨f, hf, hfp⟩ | h'
      · exact Or.inl ⟨f, List.mem_cons_of_mem _ hf, hfp⟩
      · exact Or.inr h'
    · exact pathExistsFS_mkdirs fs _ p h

theorem download_one_ok_exists (item : LinkRecord) (net : Nat → Option Bytes)
    (base : ℚ) (retries : Nat) (fs : FS)
    (h : (download_one item net base retries fs).status ≠ DlStatus.failed) :
    pathExistsFS (download_one item net base retries fs).fs (targetPath item) = true := by
  unfold download_one at h ⊢
  dsimp only at h ⊢
  by_cases hc : pathExistsFS (mkdirsFS fs (dirname (targetPath item))) (targetPath item) = true
  · rw [if_pos hc]
    exact hc
  · rw [if_neg hc] at h ⊢
    revert h
    rcases runAttempts net base retries (List.range' 1 retries) with ⟨ob, sleeps, reqs⟩
    intro h
    cases ob with
    | none => exact absurd rfl h
    | some b =>
      exact (pathExistsFS_iff _ _).mpr
        (Or.inl ⟨(targetPath item, b), List.mem_cons_self _ _, rfl⟩)

theorem download_images_mono (items : List LinkRecord) (net : Nat → Nat → Option Bytes)
    (base : ℚ) (retries : Nat) (fs : FS) (p : Str) (h : pathExistsFS fs p = true) :
    pathExistsFS (download_images base retries items net fs).fs p = true := by
  induction items generalizing net fs with
  | nil => exact h
  | cons it rest ih =>
    exact ih _ _ (download_one_mono it (net 0) base retries fs p h)

theorem download_images_ok_exists (items : List LinkRecord)
    (net : Nat → Nat → Option Bytes) (base : ℚ) (retries : Nat) (fs : FS)
    (h : ∀ s ∈ (download_images base retries items net fs).statuses, s ≠ DlStatus.failed) :
    ∀ it ∈ items, pathExistsFS (download_images base retries items net fs).fs
      (targetPath it) = true := by
  induction items generalizing net fs with
  | nil => intro it hit; cases hit
  | cons x rest ih =>
    intro it hit
    have hx : (download_one x (net 0) base retries fs).status ≠ DlStatus.failed :=
      h _ (List.mem_cons_self _ _)
    rcases List.mem_cons.mp hit with rfl | hit'
    · exact download_images_mono rest _ base retries _ _
        (download_one_ok_exists it (net 0) base retries fs hx)
    · exact ih (fun i => net (i + 1)) _
        (fun s hs => h s (List.mem_cons_of_mem _ hs)) it hit'

theorem download_images_all_exist_skip (items : List LinkRecord)
    (net : Nat → Nat → Option Bytes) (base : ℚ) (retries : Nat) (fs : FS)
    (h : ∀ it ∈ items, pathExistsFS fs (targetPath it) = true) :
    (download_images base retries items net fs).requests = 0 ∧
    ∀ s ∈ (download_images base retries items net fs).statuses, s = DlStatus.skipped := by
  induction items generalizing net fs with
  | nil => exact ⟨rfl, fun s hs => absurd hs (List.not_mem_nil s)⟩
  | cons x rest ih =>
    have hx := h x (List.mem_cons_self _ _)
    have hskip : download_one x (net 0) base retries fs =
        ⟨DlStatus.skipped, [], 0, mkdirsFS fs (dirname (targetPath x))⟩ := by
      unfold download_one
      dsimp only
      rw [if_pos (pathExistsFS_mkdirs fs _ _ hx)]
    have hrest : ∀ it ∈ rest,
        pathExistsFS (download_one x (net 0) base retries fs).fs (targetPath it) = true :=
      fun it hit => download_one_mono x (net 0) base retries fs _
        (h it (List.mem_cons_of_mem _ hit))
    have ihr := ih (fun i => net (i + 1)) (download_one x (net 0) base retries fs).fs hrest
    have hreq : (download_images base retries (x :: rest) net fs).requests =
        (download_one x (net 0) base retries fs).requests +
        (download_images base retries rest (fun i => net (i + 1))
          (download_one x (net 0) base retries fs).fs).requests := rfl
    have hsts : (download_images base retries (x :: rest) net fs).statuses =
        (download_one x (net 0) base retries fs).status ::
        (download_images base retries rest (fun i => net (i + 1))
          (download_one x (net 0) base retries fs).fs).statuses := rfl
    refine ⟨?_, ?_⟩
    · rw [hreq, ihr.1, hskip]
    · intro s hs
      rw [hsts] at hs
      rcases List.mem_cons.mp hs with rfl | hs'
      · rw [hskip]
      · exact ihr.2 s hs'

/-! ### Claim C3 -/

/-- C3: an item whose target already exists is reported skipped with no
GET request; and after a first run in which no item failed, a second run
of the whole batch issues zero GET requests and reports every item
skipped. -/
theorem c3_second_run_no_requests :
    (∀ (item : LinkRecord) (net : Nat → Option Bytes) (base : ℚ) (retries : Nat) (fs : FS),
       pathExistsFS fs (targetPath item) = true →
       (download_one item net base retries fs).status = DlStatus.skipped ∧
       (download_one item net base retries fs).requests = 0) ∧
    (∀ (items : List LinkRecord) (net1 net2 : Nat → Nat → Option Bytes) (base : ℚ)
       (retries : Nat) (fs0 : FS),
       (∀ s ∈ (download_images base retries items net1 fs0).statuses,
          s ≠ DlStatus.failed) →
       (download_images base retries items net2
          (download_images base retries items net1 fs0).fs).requests = 0 ∧
       (∀ s ∈ (download_images base retries items net2
          (download_images base retries items net1 fs0).fs).statuses,
          s = DlStatus.skipped)) := by
  constructor
  · intro item net base retries fs hex
    have hskip : download_one item net base retries fs =
        ⟨DlStatus.skipped, [], 0, mkdirsFS fs (dirname (targetPath item))⟩ := by
      unfold download_one
      dsimp only
      rw [if_pos (pathExistsFS_mkdirs fs _ _ hex)]
    rw [hskip]
    exact ⟨rfl, rfl⟩
  · intro items net1 net2 base retries fs0 hok
    exact download_images_all_exist_skip items net2 base retries _
      (download_images_ok_exists items net1 base retries fs0 hok)

def c3Item : LinkRecord :=
  ⟨"05".toList, "Chainsaw Man (Digitally Colored)/Chapter 1 - A/01.jpg".toList,
   "https://cdn/a/01.jpg".toList⟩

/-- Witness for C3: one concrete record, a first run that downloads it,
and a second run that performs zero requests, all skipped. -/
theorem c3_witness :
    (download_images 1 3 [c3Item] (fun _ _ => none)
       (download_images 1 3 [c3Item] (fun _ _ => some [7]) ⟨[], []⟩).fs).requests = 0 ∧
    (∀ s ∈ (download_images 1 3 [c3Item] (fun _ _ => none)
       (download_images 1 3 [c3Item] (fun _ _ => some [7]) ⟨[], []⟩).fs).statuses,
       s = DlStatus.skipped) :=
  c3_second_run_no_requests.2 [c3Item] (fun _ _ => some [7]) (fun _ _ => none) 1 3
    ⟨[], []⟩ (by decide)

/-! ### Claim C4 -/

theorem runAttempts_requests_le (net : Nat → Option Bytes) (base : ℚ) (retries : Nat) :
    ∀ l : List Nat, (runAttempts net base retries l).2.2 ≤ l.length := by
  intro l
  induction l with
  | nil => simp [runAttempts]
  | cons attempt more ih =>
    cases hn : net attempt with
    | some b => simp [runAttempts, hn]
    | none =>
      by_cases hlt : attempt < retries
      · simp only [runAttempts, hn, if_pos hlt, List.length_cons]
        omega
      · simp only [runAttempts, hn, if_neg hlt, List.length_cons]
        omega

/-- C4: with the default three retries, a target not yet present, and a
network that fails twice then succeeds, the item is reported downloaded
after exactly 3 requests with back-off sleeps `base*1` and `base*2`; with
three failures it is reported failed after the same sleeps; the number of
requests never exceeds the retry count; and a batch always processes
every item regardless of failures. -/
theorem c4_retry_policy :
    (∀ (item : LinkRecord) (net : Nat → Option Bytes) (base : ℚ) (fs : FS) (b : Bytes),
       pathExistsFS (mkdirsFS fs (dirname (targetPath item))) (targetPath item) = false →
       net 1 = none → net 2 = none → net 3 = some b →
       download_one item net base 3 fs =
         ⟨DlStatus.downloaded, [base * 1, base * 2], 3,
          { files := (targetPath item, b) ::
              (mkdirsFS fs (dirname (targetPath item))).files,
            dirs := (mkdirsFS fs (dirname (targetPath item))).dirs }⟩) ∧
    (∀ (item : LinkRecord) (net : Nat → Option Bytes) (base : ℚ) (fs : FS),
       pathExistsFS (mkdirsFS fs (dirname (targetPath item))) (targetPath item) = false →
       net 1 = none → net 2 = none → net 3 = none →
       download_one item net base 3 fs =
         ⟨DlStatus.failed, [base * 1, base * 2], 3,
          mkdirsFS fs (dirname (targetPath item))⟩) ∧
    (∀ (item : LinkRecord) (net : Nat → Option Bytes) (base : ℚ) (retries : Nat) (fs : FS),
       (download_one item net base retries fs).requests ≤ retries) ∧
    (∀ (items : List LinkRecord) (net : Nat → Nat → Option Bytes) (base : ℚ)
       (retries : Nat) (fs : FS),
       (download_images base retries items net fs).statuses.length = items.length) := by
  refine ⟨?_, ?_, ?_, ?_⟩
  · intro item net base fs b hne h1 h2 h3
    have hrange : List.range' 1 3 = [1, 2, 3] := rfl
    have hrun : runAttempts net base 3 (List.range' 1 3) =
        (some b, [base * 1, base * 2], 3) := by
      rw [hrange]
      simp only [runAttempts, h1, h2, h3]
      norm_num
    unfold download_one
    dsimp only
    rw [if_neg (by rw [hne]; exact Bool.false_ne_true), hrun]
  · intro item net base fs hne h1 h2 h3
    have hrange : List.range' 1 3 = [1, 2, 3] := rfl
    have hrun : runAttempts net base 3 (List.range' 1 3) =
        (none, [base * 1, base * 2], 3) := by
      rw [hrange]
      simp only [runAttempts, h1, h2, h3]
      norm_num
    unfold download_one
    dsimp only
    rw [if_neg (by rw [hne]; exact Bool.false_ne_true), hrun]
  · intro item net base retries fs
    unfold download_one
    dsimp only
    split
    · exact Nat.zero_le retries
    · have hle := runAttempts_requests_le net base retries (List.range' 1 retries)
      rw [List.length_range'] at hle
      revert hle
      rcases runAttempts net base retries (List.range' 1 retries) with ⟨ob, sleeps, reqs⟩
      intro hle
      cases ob <;> exact hle
  · intro items net base retries fs
    induction items generalizing net fs with
    | nil => rfl
    | cons x rest ih =>
      have : (download_images base retries (x :: rest) net fs).statuses =
          (download_one x (net 0) base retries fs).status ::
          (download_images base retries rest (fun i => net (i + 1))
            (download_one x (net 0) base retries fs).fs).statuses := rfl
      rw [this, List.length_cons, ih, List.length_cons]

def c4Net : Nat → Option Bytes := fun n => if n = 3 then some [9] else none

/-- Witness for C4 at a concrete record and a network failing twice then
succeeding: downloaded, sleeps 1s and 2s, three requests. -/
theorem c4_witness :
    download_one c3Item c4Net 1 3 ⟨[], []⟩ =
      ⟨DlStatus.downloaded, [1, 2], 3,
       { files := [(targetPath c3Item, [9])],
         dirs := [dirname (targetPath c3Item)] }⟩ := by
  have h := c4_retry_policy.1 c3Item c4Net 1 ⟨[], []⟩ [9]
    (by decide) (by decide) (by decide) (by decide)
  rw [h]
  norm_num [mkdirsFS]

/-! ### Claim C10 -/

def c10Item : LinkRecord :=
  ⟨"02".toList, "Chainsaw Man (Digitally Colored)/Chapter 9 - B/04.jpg".toList,
   "https://cdn/b/04.jpg".toList⟩

def c10FS : FS := ⟨[(targetPath c10Item, [1, 2, 3])], []⟩

/-- C10: when a file already exists at the target, processing the item
first creates the parent directory, then skips: the returned state is
exactly the input state with the parent directory added, the file list —
hence the existing file's contents — unchanged, no sleeps, and zero GET
requests. -/
theorem c10_skip_only_creates_directory :
    ∀ (item : LinkRecord) (net : Nat → Option Bytes) (base : ℚ) (retries : Nat) (fs : FS),
      (∃ f ∈ fs.files, f.1 = targetPath item) →
      download_one item net base retries fs =
        ⟨DlStatus.skipped, [], 0, mkdirsFS fs (dirname (targetPath item))⟩ ∧
      (mkdirsFS fs (dirname (targetPath item))).files = fs.files ∧
      (mkdirsFS fs (dirname (targetPath item))).dirs =
        dirname (targetPath item) :: fs.dirs := by
  intro item net base retries fs hex
  refine ⟨?_, rfl, rfl⟩
  unfold download_one
  dsimp only
  rw [if_pos ((pathExistsFS_iff (mkdirsFS fs (dirname (targetPath item)))
    (targetPath item)).mpr (Or.inl hex))]

/-- Witness for C10 at a concrete record and a filesystem already holding
the target file. -/
theorem c10_witness :
    download_one c10Item (fun _ => some [4]) 1 3 c10FS =
      ⟨DlStatus.skipped, [], 0, mkdirsFS c10FS (dirname (targetPath c10Item))⟩ :=
  (c10_skip_only_creates_directory c10Item (fun _ => some [4]) 1 3 c10FS
    ⟨(targetPath c10Item, [1, 2, 3]), List.mem_cons_self _ _, rfl⟩).1

/-! ### Volume Collector (`collect_images_for_volume`) -/

/-- `name.lower().endswith((".jpg", ".jpeg", ".png"))`. -/
def isImageName (name : Str) : Bool :=
  ".jpg".toList.isSuffixOf (lcS name) || ".jpeg".toList.isSuffixOf (lcS name) ||
  ".png".toList.isSuffixOf (lcS name)

/-- `collect_images_for_volume`: every file under the output root whose
directory contains the volume tag and whose name has an image extension,
as a root-relative path, sorted by `_sort_key_for_relpath`.  (`os.walk`
enumeration order is irrelevant: the sort key ends in the full relative
path and distinct files have distinct paths.) -/
def collect_images_for_volume (fs : FS) (vol : Str) : List Str :=
  let tag := volMarkerS ++ vol
  sortEntries ((fs.files.filterMap (fun f =>
    if (OUTPUT_ROOT ++ ['/']).isPrefixOf f.1 then
      some (f.1.drop (OUTPUT_ROOT.length + 1))
    else none)).filter (fun rel =>
      containsSub tag (dirname (joinPath OUTPUT_ROOT rel)) && isImageName (lastSeg rel)))

/-! ### PDF Renderer (`build_pdf_for_volume`) -/

/-- An opened PIL image: its color mode and an identifier for its pixel
content. -/
structure PILImg where
  mode : Str
  data : Str
deriving DecidableEq, Repr

def rgbMode : Str := "RGB".toList

/-- `if img.mode != "RGB": img = img.convert("RGB")` (pixel conversion
abstracted; the mode and identity are what the claims observe). -/
def toRGB (i : PILImg) : PILImg :=
  if i.mode ≠ rgbMode then { i with mode := rgbMode } else i

inductive PdfOutcome where
  /-- `[!] No images for volume ...`, nothing written. -/
  | noImages
  /-- `[=] PDF already exists ...`, nothing written. -/
  | alreadyExists
  /-- `[!] No valid images ...`, nothing written. -/
  | noValid
  /-- One PDF written with exactly these pages in order. -/
  | written (pages : List PILImg)
deriving DecidableEq, Repr

def PDF_OUTPUT : Str := joinPath OUTPUT_ROOT ("pdfs".toList)

def pdfPath (vol : Str) : Str :=
  joinPath PDF_OUTPUT
    ("Chainsaw_Man_Digitally_Colored_v".toList ++ vol ++ ".pdf".toList)

/-- `build_pdf_for_volume`, parameterized by the collector's entries,
whether the output PDF already exists, and `Image.open` (`none` models
the caught per-image exception). -/
def build_pdf_for_volume (entries : List Str) (pdfExists : Bool)
    (openImg : Str → Option PILImg) : PdfOutcome :=
  if entries = [] then .noImages
  else if pdfExists then .alreadyExists
  else
    let images :=
      entries.filterMap (fun rel => (openImg (joinPath OUTPUT_ROOT rel)).map toRGB)
    if images = [] then .noValid else .written images

theorem filterMap_map_eq_filter_map {α β : Type} (f : α → Option β) (g : β → β)
    (d : β) (l : List α) :
    l.filterMap (fun a => (f a).map g) =
      (l.filter (fun a => (f a).isSome)).map (fun a => g ((f a).getD d)) := by
  induction l with
  | nil => rfl
  | cons x xs ih =>
    cases hx : f x <;> simp [List.filterMap_cons, List.filter_cons, hx, ih]

/-! ### Claim C5 -/

/-- C5: the PDF renderer writes nothing (a reported no-op) for an empty
collection or an already-existing PDF; otherwise it writes exactly one
PDF whose pages are the successfully opened images, RGB-converted, in
collector order — one page per opening entry — and per-image open
failures only drop that image; if every open fails nothing is written. -/
theorem c5_pdf_renderer :
    ∀ (entries : List Str) (pdfExists : Bool) (openImg : Str → Option PILImg),
      build_pdf_for_volume [] pdfExists openImg = PdfOutcome.noImages ∧
      (entries ≠ [] → build_pdf_for_volume entries true openImg = PdfOutcome.alreadyExists) ∧
      (∀ ps, build_pdf_for_volume entries pdfExists openImg = PdfOutcome.written ps →
         ps = (entries.filter (fun rel => (openImg (joinPath OUTPUT_ROOT rel)).isSome)).map
               (fun rel => toRGB ((openImg (joinPath OUTPUT_ROOT rel)).getD ⟨rgbMode, []⟩)) ∧
         ps.length = entries.countP
           (fun rel => (openImg (joinPath OUTPUT_ROOT rel)).isSome)) ∧
      ((∀ rel ∈ entries, openImg (joinPath OUTPUT_ROOT rel) = none) → entries ≠ [] →
         pdfExists = false →
         build_pdf_for_volume entries pdfExists openImg = PdfOutcome.noValid) := by
  intro entries pdfExists openImg
  refine ⟨rfl, ?_, ?_, ?_⟩
  · intro hne
    simp [build_pdf_for_volume, hne]
  · intro ps h
    unfold build_pdf_for_volume at h
    split at h
    · exact absurd h (by simp)
    · split at h
      · exact absurd h (by simp)
      · dsimp only at h
        split at h
        · exact absurd h (by simp)
        · injection h with h'
          subst h'
          constructor
          · exact filterMap_map_eq_filter_map _ toRGB ⟨rgbMode, []⟩ entries
          · rw [filterMap_map_eq_filter_map _ toRGB ⟨rgbMode, []⟩ entries,
              List.length_map, ← List.countP_eq_length_filter]
  · intro hall hne hpdf
    subst hpdf
    unfold build_pdf_for_volume
    rw [if_neg hne, if_neg (by exact fun hc => Bool.false_ne_true hc)]
    rw [if_pos]
    rw [List.filterMap_eq_nil]
    intro rel hrel
    rw [hall rel hrel]
    rfl

def c5e1 : Str := "Digital Colored Comics v03/Chapter 1 - A/01.jpg".toList

def c5e2 : Str := "Digital Colored Comics v03/Chapter 1 - A/02.jpg".toList

def c5Entries : List Str := [c5e1, c5e2]

/-- `Image.open` succeeding on the first entry (a non-RGB image) and
raising on the second. -/
def c5Open : Str → Option PILImg := fun p =>
  if p = joinPath OUTPUT_ROOT c5e2 then none else some ⟨"L".toList, p⟩

/-- Witness for C5: of two collected entries one opens (mode `L`,
converted to RGB) and one fails; exactly one page is written. -/
theorem c5_witness :
    ([⟨rgbMode, joinPath OUTPUT_ROOT c5e1⟩] : List PILImg) =
      (c5Entries.filter (fun rel => (c5Open (joinPath OUTPUT_ROOT rel)).isSome)).map
        (fun rel => toRGB ((c5Open (joinPath OUTPUT_ROOT rel)).getD ⟨rgbMode, []⟩)) ∧
    ([(⟨rgbMode, joinPath OUTPUT_ROOT c5e1⟩ : PILImg)]).length =
      c5Entries.countP (fun rel => (c5Open (joinPath OUTPUT_ROOT rel)).isSome) :=
  (c5_pdf_renderer c5Entries false c5Open).2.2.1
    [⟨rgbMode, joinPath OUTPUT_ROOT c5e1⟩] (by decide)

/-! ### EPUB Renderer (`csm_epub.py`) -/

/-- Anchored step of `re.search(r"(Chapter\s+\d+[^/]*)", rel_path)`:
after `Chapter`, whitespace, and digits all match, the greedy `[^/]*`
extends the capture to the next `/` (or the end). -/
def chapLabelAt (s : Str) : Option Str :=
  if "Chapter".toList.isPrefixOf s then
    let rest := s.drop 7
    let ws := rest.takeWhile isPySpace
    let ds := (rest.drop ws.length).takeWhile Char.isDigit
    if ws ≠ [] ∧ ds ≠ [] then some (s.takeWhile (fun c => c ≠ '/')) else none
  else none

/-- Leftmost match of the chapter-label pattern. -/
def searchChapLabel : Str → Option Str
  | [] => none
  | c :: rest =>
    match chapLabelAt (c :: rest) with
    | some l => some l
    | none => searchChapLabel rest

/-- `extract_chapter_label`, with the `"Pages"` fallback. -/
def extract_chapter_label (rel : Str) : Str :=
  (searchChapLabel rel).getD ("Pages".toList)

/-- One step of filling the `chapters` dict: append to the existing key's
page list, or add a new key at the end (Python dicts preserve insertion
order). -/
def insertGroup : List (Str × List Str) → Str → Str → List (Str × List Str)
  | [], l, e => [(l, [e])]
  | (l', es) :: rest, l, e =>
    if l' = l then (l', es ++ [e]) :: rest else (l', es) :: insertGroup rest l e

/-- The `chapters` dict of `build_epub_for_volume`, built over the
collector's entries in order. -/
def groupByLabel (entries : List Str) : List (Str × List Str) :=
  entries.foldl (fun gs e => insertGroup gs (extract_chapter_label e) e) []

/-- The spine: pages appended while iterating the chapter groups. -/
def epubSpine (entries : List Str) : List Str :=
  (groupByLabel entries).flatMap Prod.snd

/-- The TOC: one link per chapter group, to its first page (`None` guard
as in the source). -/
def epubToc (entries : List Str) : List (Str × Str) :=
  (groupByLabel entries).filterMap (fun g => g.2.head?.map (fun e => (g.1, e)))

/-- The distinct elements of a list in order of first occurrence. -/
def firstSeenAux {α : Type} [DecidableEq α] (seen : List α) : List α → List α
  | [] => []
  | a :: l => if a ∈ seen then firstSeenAux seen l else a :: firstSeenAux (a :: seen) l

def firstSeen {α : Type} [DecidableEq α] (l : List α) : List α := firstSeenAux [] l

/-- First group value for a label (empty when the label is absent). -/
def lookupGrp (gs : List (Str × List Str)) (l : Str) : List Str :=
  ((gs.find? (fun g => decide (g.1 = l))).map Prod.snd).getD []

/-! #### Grouping lemmas -/

theorem insertGroup_keys (gs : List (Str × List Str)) (l : Str) (e : Str) :
    (insertGroup gs l e).map Prod.fst =
      if l ∈ gs.map Prod.fst then gs.map Prod.fst else gs.map Prod.fst ++ [l] := by
  induction gs with
  | nil => simp [insertGroup]
  | cons g rest ih =>
    rcases g with ⟨l', es⟩
    by_cases hl : l' = l
    · subst hl
      simp [insertGroup]
    · simp only [insertGroup, if_neg hl, List.map_cons, List.mem_cons, ih]
      by_cases hmem : l ∈ rest.map Prod.fst
      · rw [if_pos hmem, if_pos (Or.inr hmem)]
      · rw [if_neg hmem, if_neg (by rintro (h | h); exact hl h.symm; exact hmem h),
          List.cons_append]

theorem lookupGrp_nil (l : Str) : lookupGrp [] l = [] := rfl

theorem lookupGrp_cons (k : Str) (v : List Str) (rest : List (Str × List Str)) (l : Str) :
    lookupGrp ((k, v) :: rest) l = if k = l then v else lookupGrp rest l := by
  by_cases h : k = l
  · rw [if_pos h]
    rw [lookupGrp, List.find?_cons_of_pos _ (by simp [h])]
    rfl
  · rw [if_neg h]
    rw [lookupGrp, List.find?_cons_of_neg _ (by simp [h])]
    rfl

theorem insertGroup_lookup (gs : List (Str × List Str)) (k e l : Str) :
    lookupGrp (insertGroup gs k e) l =
      if l = k then lookupGrp gs k ++ [e] else lookupGrp gs l := by
  induction gs with
  | nil =>
    rw [insertGroup, lookupGrp_cons]
    by_cases h : l = k
    · rw [if_pos h.symm, if_pos h, lookupGrp_nil, List.nil_append]
    · rw [if_neg (fun hc : k = l => h hc.symm), if_neg h]
  | cons g rest ih =>
    rcases g with ⟨k', v⟩
    rw [insertGroup]
    by_cases hk : k' = k
    · subst hk
      rw [if_pos rfl, lookupGrp_cons, lookupGrp_cons]
      by_cases h : l = k'
      · rw [if_pos h.symm, if_pos h, if_pos rfl]
      · rw [if_neg (fun hc : k' = l => h hc.symm), if_neg h, lookupGrp_cons,
          if_neg (fun hc : k' = l => h hc.symm)]
    · rw [if_neg hk, lookupGrp_cons]
      by_cases h : k' = l
      · subst h
        rw [if_pos rfl, if_neg (fun hc : k' = k => hk hc), lookupGrp_cons, if_pos rfl]
      · rw [if_neg h, ih]
        by_cases h2 : l = k
        · rw [if_pos h2, if_pos h2, lookupGrp_cons, if_neg hk]
        · rw [if_neg h2, if_neg h2, lookupGrp_cons, if_neg h]

theorem insertGroup_flat (gs : List (Str × List Str)) (l : Str) (e : Str) :
    ((insertGroup gs l e).flatMap Prod.snd).Perm (gs.flatMap Prod.snd ++ [e]) := by
  induction gs with
  | nil => simp [insertGroup]
  | cons g rest ih =>
    rcases g with ⟨l', es⟩
    by_cases hl : l' = l
    · subst hl
      rw [insertGroup, if_pos rfl]
      simp only [List.flatMap_cons, List.append_assoc]
      exact List.Perm.append_left es List.perm_append_comm
    · rw [insertGroup, if_neg hl]
      simp only [List.flatMap_cons, List.append_assoc]
      exact List.Perm.append_left es ih

theorem insertGroup_nonempty (gs : List (Str × List Str)) (l : Str) (e : Str)
    (h : ∀ g ∈ gs, g.2 ≠ []) : ∀ g ∈ insertGroup gs l e, g.2 ≠ [] := by
  induction gs with
  | nil =>
    intro g hg
    rcases List.mem_singleton.mp hg with rfl
    simp
  | cons g0 rest ih =>
    rcases g0 with ⟨l', es⟩
    intro g hg
    by_cases hl : l' = l
    · subst hl
      rw [insertGroup, if_pos rfl] at hg
      rcases List.mem_cons.mp hg with rfl | hg'
      · simp
      · exact h g (List.mem_cons_of_mem _ hg')
    · rw [insertGroup, if_neg hl] at hg
      rcases List.mem_cons.mp hg with rfl | hg'
      · exact h _ (List.mem_cons_self _ _)
      · exact ih (fun g' hg' => h g' (List.mem_cons_of_mem _ hg')) g hg'

theorem firstSeenAux_congr {α : Type} [DecidableEq α] (l : List α) :
    ∀ s1 s2 : List α, (∀ x, x ∈ s1 ↔ x ∈ s2) →
      firstSeenAux s1 l = firstSeenAux s2 l := by
  induction l with
  | nil => intro s1 s2 _; rfl
  | cons a l ih =>
    intro s1 s2 hs
    by_cases ha : a ∈ s1
    · rw [firstSeenAux, if_pos ha, firstSeenAux, if_pos ((hs a).mp ha)]
      exact ih s1 s2 hs
    · rw [firstSeenAux, if_neg ha, firstSeenAux, if_neg (fun hc => ha ((hs a).mpr hc))]
      exact congrArg _ (ih _ _ (fun x => by simp [hs x]))

/-- The characteristic fold lemma for the group keys. -/
theorem foldl_insertGroup_keys (lab : Str → Str) (es : List Str) :
    ∀ gs : List (Str × List Str),
      (es.foldl (fun gs e => insertGroup gs (lab e) e) gs).map Prod.fst =
        gs.map Prod.fst ++ firstSeenAux (gs.map Prod.fst) (es.map lab) := by
  induction es with
  | nil => intro gs; simp [firstSeenAux]
  | cons e rest ih =>
    intro gs
    rw [List.foldl_cons, ih, insertGroup_keys, List.map_cons]
    by_cases hmem : lab e ∈ gs.map Prod.fst
    · rw [if_pos hmem, firstSeenAux, if_pos hmem]
    · rw [if_neg hmem, firstSeenAux, if_neg hmem, List.append_assoc]
      refine congrArg _ ?_
      rw [List.singleton_append]
      refine congrArg _ (firstSeenAux_congr _ _ _ ?_)
      intro x
      simp [or_comm]

/-- The characteristic fold lemma for a group's page list. -/
theorem foldl_insertGroup_lookup (lab : Str → Str) (es : List Str) :
    ∀ (gs : List (Str × List Str)) (l : Str),
      lookupGrp (es.foldl (fun gs e => insertGroup gs (lab e) e) gs) l =
        lookupGrp gs l ++ es.filter (fun e => decide (lab e = l)) := by
  induction es with
  | nil => intro gs l; simp
  | cons e rest ih =>
    intro gs l
    rw [List.foldl_cons, ih, insertGroup_lookup, List.filter_cons]
    by_cases h : l = lab e
    · subst h
      rw [if_pos rfl, if_pos (by simp), List.append_assoc, List.singleton_append]
    · rw [if_neg h, if_neg (by simpa using fun hc => h hc.symm)]

/-- The groups' pages are a permutation of the entries. -/
theorem foldl_insertGroup_flat (lab : Str → Str) (es : List Str) :
    ∀ gs : List (Str × List Str),
      ((es.foldl (fun gs e => insertGroup gs (lab e) e) gs).flatMap Prod.snd).Perm
        (gs.flatMap Prod.snd ++ es) := by
  induction es with
  | nil => intro gs; simp
  | cons e rest ih =>
    intro gs
    rw [List.foldl_cons]
    refine (ih _).trans ?_
    have h2 := (insertGroup_flat gs (lab e) e).append_right rest
    have h3 : (gs.flatMap Prod.snd ++ [e]) ++ rest =
        gs.flatMap Prod.snd ++ (e :: rest) := by
      rw [List.append_assoc, List.singleton_append]
    exact h3 ▸ h2

theorem foldl_insertGroup_nonempty (lab : Str → Str) (es : List Str) :
    ∀ gs : List (Str × List Str), (∀ g ∈ gs, g.2 ≠ []) →
      ∀ g ∈ es.foldl (fun gs e => insertGroup gs (lab e) e) gs, g.2 ≠ [] := by
  induction es with
  | nil => intro gs h; exact h
  | cons e rest ih =>
    intro gs h
    exact ih _ (insertGroup_nonempty gs (lab e) e h)

theorem firstSeenAux_nodup {α : Type} [DecidableEq α] (l : List α) :
    ∀ seen : List α, (firstSeenAux seen l).Nodup ∧
      ∀ x ∈ firstSeenAux seen l, x ∉ seen := by
  induction l with
  | nil => intro seen; exact ⟨List.nodup_nil, fun x hx => absurd hx (List.not_mem_nil x)⟩
  | cons a l ih =>
    intro seen
    by_cases ha : a ∈ seen
    · rw [firstSeenAux, if_pos ha]
      exact ih seen
    · rw [firstSeenAux, if_neg ha]
      obtain ⟨hnd, hout⟩ := ih (a :: seen)
      refine ⟨List.nodup_cons.mpr ⟨?_, hnd⟩, ?_⟩
      · intro hc
        exact hout a hc (List.mem_cons_self a seen)
      · intro x hx
        rcases List.mem_cons.mp hx with rfl | hx'
        · exact ha
        · intro hc
          exact hout x hx' (List.mem_cons_of_mem a hc)

theorem firstSeenAux_subset {α : Type} [DecidableEq α] (l : List α) :
    ∀ seen : List α, ∀ x ∈ firstSeenAux seen l, x ∈ l := by
  induction l with
  | nil => intro seen x hx; exact absurd hx (List.not_mem_nil x)
  | cons a l ih =>
    intro seen x hx
    by_cases ha : a ∈ seen
    · rw [firstSeenAux, if_pos ha] at hx
      exact List.mem_cons_of_mem a (ih seen x hx)
    · rw [firstSeenAux, if_neg ha] at hx
      rcases List.mem_cons.mp hx with rfl | hx'
      · exact List.mem_cons_self x l
      · exact List.mem_cons_of_mem a (ih (a :: seen) x hx')

/-- An association list with distinct keys is its key list paired with
its lookups. -/
theorem assoc_ext (gs : List (Str × List Str)) (hnd : (gs.map Prod.fst).Nodup) :
    gs = (gs.map Prod.fst).map (fun l => (l, lookupGrp gs l)) := by
  induction gs with
  | nil => rfl
  | cons g rest ih =>
    rcases g with ⟨k, v⟩
    obtain ⟨hknot, hndrest⟩ := List.nodup_cons.mp hnd
    have hmap : (rest.map Prod.fst).map (fun l => (l, lookupGrp ((k, v) :: rest) l)) =
        (rest.map Prod.fst).map (fun l => (l, lookupGrp rest l)) := by
      refine List.map_congr_left ?_
      intro l hl
      have hlk : k ≠ l := fun hc => hknot (hc ▸ hl)
      rw [lookupGrp_cons, if_neg hlk]
    rw [List.map_cons, List.map_cons, hmap, lookupGrp_cons, if_pos rfl, ← ih hndrest]

theorem find?_eq_head?_filter {α : Type} (p : α → Bool) (l : List α) :
    l.find? p = (l.filter p).head? := by
  induction l with
  | nil => rfl
  | cons x xs ih =>
    cases hx : p x
    · rw [List.find?_cons_of_neg _ (by simp [hx]), List.filter_cons_of_neg (by simp [hx])]
      exact ih
    · rw [List.find?_cons_of_pos _ hx, List.filter_cons_of_pos hx, List.head?_cons]

/-- With nonempty group values, the TOC construction keeps one entry per
group, so its labels are exactly the group keys. -/
theorem toc_keys (gs : List (Str × List Str)) (hne : ∀ g ∈ gs, g.2 ≠ []) :
    (gs.filterMap (fun g => g.2.head?.map (fun e => (g.1, e)))).map Prod.fst =
      gs.map Prod.fst := by
  induction gs with
  | nil => rfl
  | cons g rest ih =>
    rcases g with ⟨l, es⟩
    cases es with
    | nil => exact absurd rfl (hne _ (List.mem_cons_self _ _))
    | cons x xs =>
      rw [List.filterMap_cons_some (by rfl), List.map_cons, List.map_cons,
        ih (fun g hg => hne g (List.mem_cons_of_mem _ hg))]

/-- Full characterization of the chapter groups: keys are the distinct
labels in first-seen order; each group's pages are the entries with that
label, in order. -/
theorem groupByLabel_char (entries : List Str) :
    groupByLabel entries =
      (firstSeen (entries.map extract_chapter_label)).map
        (fun l => (l, entries.filter (fun e => decide (extract_chapter_label e = l)))) := by
  have hkeys : (groupByLabel entries).map Prod.fst =
      firstSeen (entries.map extract_chapter_label) := by
    have h := foldl_insertGroup_keys extract_chapter_label entries []
    simpa [groupByLabel, firstSeen] using h
  have hnd : ((groupByLabel entries).map Prod.fst).Nodup := by
    rw [hkeys]
    exact (firstSeenAux_nodup (entries.map extract_chapter_label) []).1
  have hlook : ∀ l, lookupGrp (groupByLabel entries) l =
      entries.filter (fun e => decide (extract_chapter_label e = l)) := by
    intro l
    have h := foldl_insertGroup_lookup extract_chapter_label entries [] l
    simpa [groupByLabel, lookupGrp] using h
  calc groupByLabel entries
      = ((groupByLabel entries).map Prod.fst).map
          (fun l => (l, lookupGrp (groupByLabel entries) l)) := assoc_ext _ hnd
    _ = (firstSeen (entries.map extract_chapter_label)).map
          (fun l => (l, entries.filter (fun e => decide (extract_chapter_label e = l)))) := by
        rw [hkeys]
        exact List.map_congr_left (fun l _ => by rw [hlook l])

/-! ### Claim C6 -/

def c6e1 : Str := "V/Chapter 8 - Foo/01.jpg".toList

def c6e2 : Str := "V/Chapter 8 - Zzz/02.jpg".toList

def c6e3 : Str := "V/Chapter 8 - Foo/03.jpg".toList

/-- C6, counterexample: a collector output (a fixed point of the sort,
since the shared chapter number 8 orders by page across both labels) in
which the two `Chapter 8 - Foo` pages sandwich the `Chapter 8 - Zzz`
page.  The spine regroups by chapter label, so its order differs from
collector order, refuting C6's spine-order clause. -/
theorem c6_spine_order_counterexample :
    sortEntries [c6e1, c6e2, c6e3] = [c6e1, c6e2, c6e3] ∧
    extract_chapter_label c6e1 = extract_chapter_label c6e3 ∧
    extract_chapter_label c6e1 ≠ extract_chapter_label c6e2 ∧
    epubSpine [c6e1, c6e2, c6e3] = [c6e1, c6e3, c6e2] ∧
    epubSpine [c6e1, c6e2, c6e3] ≠ [c6e1, c6e2, c6e3] := by decide

/-- C6, amended: the TOC has exactly one entry per distinct chapter label
in first-seen order, each linking to the first page of its chapter; the
spine length equals the number of images; but the spine is the
concatenation of the chapter groups (first-seen label order, collector
order within each group), which coincides with collector order only when
each label's pages are contiguous there. -/
theorem c6_epub_structure :
    ∀ entries : List Str, entries ≠ [] →
      (epubToc entries).map Prod.fst = firstSeen (entries.map extract_chapter_label) ∧
      (∀ p ∈ epubToc entries,
         entries.find? (fun e => decide (extract_chapter_label e = p.1)) = some p.2) ∧
      epubSpine entries =
        (firstSeen (entries.map extract_chapter_label)).flatMap
          (fun l => entries.filter (fun e => decide (extract_chapter_label e = l))) ∧
      (epubSpine entries).length = entries.length := by
  intro entries _
  have hchar := groupByLabel_char entries
  have hne : ∀ l ∈ firstSeen (entries.map extract_chapter_label),
      entries.filter (fun e => decide (extract_chapter_label e = l)) ≠ [] := by
    intro l hl
    have hl' := firstSeenAux_subset (entries.map extract_chapter_label) [] l hl
    obtain ⟨e, he, hle⟩ := List.mem_map.mp hl'
    intro hc
    have : e ∈ entries.filter (fun e => decide (extract_chapter_label e = l)) :=
      List.mem_filter.mpr ⟨he, by simp [hle]⟩
    rw [hc] at this
    exact absurd this (List.not_mem_nil e)
  have hgrpne : ∀ g ∈ groupByLabel entries, g.2 ≠ [] :=
    foldl_insertGroup_nonempty extract_chapter_label entries []
      (fun g hg => absurd hg (List.not_mem_nil g))
  have hkeys : (groupByLabel entries).map Prod.fst =
      firstSeen (entries.map extract_chapter_label) := by
    have h := foldl_insertGroup_keys extract_chapter_label entries []
    simpa [groupByLabel, firstSeen] using h
  refine ⟨?_, ?_, ?_, ?_⟩
  · unfold epubToc
    rw [toc_keys _ hgrpne, hkeys]
  · intro p hp
    unfold epubToc at hp
    rw [hchar, List.filterMap_map] at hp
    obtain ⟨l, hl, hpl⟩ := List.mem_filterMap.mp hp
    simp only [Function.comp] at hpl
    rcases hfe : entries.filter (fun e => decide (extract_chapter_label e = l)) with
      _ | ⟨x, xs⟩
    · exact absurd hfe (hne l hl)
    · rw [hfe] at hpl
      rw [List.head?_cons] at hpl
      simp only [Option.map] at hpl
      injection hpl with hpl'
      subst hpl'
      show entries.find? (fun e => decide (extract_chapter_label e = l)) = some x
      rw [find?_eq_head?_filter, hfe]
      rfl
  · unfold epubSpine
    rw [hchar, List.flatMap_map]
  · unfold epubSpine
    have hperm := foldl_insertGroup_flat extract_chapter_label entries []
    have : ((groupByLabel entries).flatMap Prod.snd).Perm entries := by
      simpa [groupByLabel] using hperm
    exact this.length_eq

/-- Witness for the amended C6 at the counterexample's entry list. -/
theorem c6_witness :
    (epubSpine [c6e1, c6e2, c6e3]).length = 3 ∧
    (epubToc [c6e1, c6e2, c6e3]).map Prod.fst =
      firstSeen ([c6e1, c6e2, c6e3].map extract_chapter_label) := by
  have h := c6_epub_structure [c6e1, c6e2, c6e3] (by decide)
  exact ⟨h.2.2.2, h.1⟩

/-! ### Error propagation (`fetch_html`, `main`, and the EPUB build) -/

abbrev Err := Str

/-- The artifacts of a finished EPUB volume build. -/
structure EpubBook where
  toc : List (Str × Str)
  spine : List Str
  images : List Bytes
deriving DecidableEq, Repr

/-- A sequence of fallible steps with no handler: the first failure
propagates, exactly like an uncaught exception inside a `for` loop. -/
def mapExcept {α β : Type} (f : α → Except Err β) : List α → Except Err (List β)
  | [] => .ok []
  | x :: xs =>
    match f x with
    | .error e => .error e
    | .ok b =>
      match mapExcept f xs with
      | .error e => .error e
      | .ok bs => .ok (b :: bs)

/-- The effectful skeleton of `build_epub_for_volume` in `csm_epub.py`:
the empty collection is a no-op (`none`); otherwise every page's image
file is read (`open(full_path, "rb")` in spine order) and there is NO
`try`/`except` anywhere in the file, so the first failing read
propagates out of the volume build. -/
def build_epub_vol (entries : List Str) (readFile : Str → Except Err Bytes) :
    Except Err (Option EpubBook) :=
  if entries = [] then .ok none
  else
    match mapExcept (fun rel => readFile (joinPath OUTPUT_ROOT rel)) (epubSpine entries) with
    | .error e => .error e
    | .ok imgs => .ok (some ⟨epubToc entries, epubSpine entries, imgs⟩)

/-- `csm_epub.main`: every volume in `FIRST_VOL..LAST_VOL` is built in
turn, with no error handling around the per-volume build. -/
def epub_main (fs : FS) (readFile : Str → Except Err Bytes) :
    Except Err (List (Option EpubBook)) :=
  mapExcept (fun vol => build_epub_vol (collect_images_for_volume fs vol) readFile)
    ((List.range' FIRST_VOL (LAST_VOL + 1 - FIRST_VOL)).map pad2)

instance {ε α : Type} [DecidableEq ε] [DecidableEq α] : DecidableEq (Except ε α) :=
  fun a b =>
    match a, b with
    | .error e1, .error e2 =>
      if h : e1 = e2 then isTrue (by rw [h])
      else isFalse (fun hc => h (Except.error.inj hc))
    | .ok a1, .ok a2 =>
      if h : a1 = a2 then isTrue (by rw [h])
      else isFalse (fun hc => h (Except.ok.inj hc))
    | .error _, .ok _ => isFalse (fun hc => Except.noConfusion hc)
    | .ok _, .error _ => isFalse (fun hc => Except.noConfusion hc)

/-- `links_info.sort(key=lambda x: (x["vol"], x["inner_path"]))`. -/
def linkLE (a b : LinkRecord) : Bool :=
  if strLt a.vol b.vol then true
  else if strLt b.vol a.vol then false
  else strLe a.inner_path b.inner_path

def linkOrd (a b : LinkRecord) : Prop := linkLE a b = true

instance : DecidableRel linkOrd :=
  fun a b => inferInstanceAs (Decidable (linkLE a b = true))

def strOrd (a b : Str) : Prop := strLe a b = true

instance : DecidableRel strOrd :=
  fun a b => inferInstanceAs (Decidable (strLe a b = true))

structure RunReport where
  statuses : List DlStatus
  pdfs : List (Str × PdfOutcome)

/-- `csm_all.main`: fetch (the only unguarded failure point), parse,
sort, download, then build one PDF per present volume.  Downloads and
per-image PDF decoding carry their failures as values, never as
exceptions. -/
def csm_all_main (fetched : Except Err Str) (net : Nat → Nat → Option Bytes)
    (base : ℚ) (fs0 : FS) (openImg : Str → Option PILImg) : Except Err RunReport :=
  match fetched with
  | .error e => .error e
  | .ok html =>
    let links := List.insertionSort linkOrd (parse_image_links html)
    let batch := download_images base 3 links net fs0
    let vols := List.insertionSort strOrd (firstSeen (links.map (fun r => r.vol)))
    .ok ⟨batch.statuses,
      vols.map (fun v =>
        (v, build_pdf_for_volume (collect_images_for_volume batch.fs v)
          (pathExistsFS batch.fs (pdfPath v)) openImg))⟩

theorem mapExcept_error {α β : Type} (f : α → Except Err β) (l : List α) (x : α)
    (e : Err) (hx : x ∈ l) (hf : f x = .error e) :
    ∃ e', mapExcept f l = Except.error e' := by
  induction l with
  | nil => exact absurd hx (List.not_mem_nil x)
  | cons y ys ih =>
    rw [mapExcept]
    cases hy : f y with
    | error e0 => exact ⟨e0, rfl⟩
    | ok b =>
      rcases List.mem_cons.mp hx with rfl | hx'
      · rw [hf] at hy; cases hy
      · obtain ⟨e', he'⟩ := ih hx'
        exact ⟨e', by rw [he']⟩

/-! ### Claim C7 -/

def c7Rel : Str := "Digital Colored Comics v01/Chapter 1 - A/01.jpg".toList

def c7FS : FS := ⟨[(joinPath OUTPUT_ROOT c7Rel, [1])], []⟩

def c7Err : Err := "read failed".toList

def c7Read : Str → Except Err Bytes := fun _ => .error c7Err

/-- C7, counterexample: one downloaded image whose file read fails during
EPUB rendering aborts the whole `csm_epub` run with that error — a
later-stage per-image error that is not handled per-item or per-volume,
refuting the claim that only the first HTML fetch can abort a run. -/
theorem c7_epub_abort_counterexample :
    collect_images_for_volume c7FS ("01".toList) = [c7Rel] ∧
    c7Read (joinPath OUTPUT_ROOT c7Rel) = .error c7Err ∧
    epub_main c7FS c7Read = .error c7Err := by decide

/-- C7, amended: in `csm_all.main` the initial fetch failure aborts the
run and is the only abort — for every network behaviour and every
per-image open behaviour the run completes with a report; but in the
EPUB pipeline a failing per-image file read aborts the volume build
(there is no handler), so later-stage errors can abort that run. -/
theorem c7_error_propagation :
    (∀ (e : Err) (net : Nat → Nat → Option Bytes) (base : ℚ) (fs : FS)
       (openImg : Str → Option PILImg),
       csm_all_main (.error e) net base fs openImg = .error e) ∧
    (∀ (html : Str) (net : Nat → Nat → Option Bytes) (base : ℚ) (fs : FS)
       (openImg : Str → Option PILImg),
       ∃ r : RunReport, csm_all_main (.ok html) net base fs openImg = .ok r) ∧
    (∀ (entries : List Str) (readFile : Str → Except Err Bytes) (rel : Str) (e : Err),
       rel ∈ epubSpine entries → readFile (joinPath OUTPUT_ROOT rel) = .error e →
       ∃ e', build_epub_vol entries readFile = Except.error e') := by
  refine ⟨fun e net base fs openImg => rfl, fun html net base fs openImg => ⟨_, rfl⟩, ?_⟩
  intro entries readFile rel e hrel hread
  have hne : entries ≠ [] := by
    intro hc
    subst hc
    simp [epubSpine, groupByLabel] at hrel
  obtain ⟨e', he'⟩ := mapExcept_error (fun rel => readFile (joinPath OUTPUT_ROOT rel))
    (epubSpine entries) rel e hrel hread
  refine ⟨e', ?_⟩
  unfold build_epub_vol
  rw [if_neg hne, he']

/-- Witness for the amended C7: the concrete one-page volume whose read
fails. -/
theorem c7_witness : ∃ e', build_epub_vol [c7Rel] c7Read = Except.error e' :=
  c7_error_propagation.2.2 [c7Rel] c7Read c7Rel c7Err (by decide) (by decide)

end CSM
